import Mathlib

/-!
Verification of the operator-regression and spectral-analysis engine of the
kooplearn repository (`kooplearn/_src/operator_regression/primal.py`).

Numpy arrays are embedded as Lean lists of columns (a column being a function
`Fin d → K`) or as Mathlib matrices; floating point numbers are idealized as
rationals (for the purely order-theoretic truncation code, which is then fully
executable) or as reals (for code that takes square roots).  External
numerical routines (`scipy.linalg.eigh`, `scipy.sparse.linalg.eigsh`,
`scipy.linalg.eig`, `scipy.linalg.solve`, sklearn's `randomized_svd` and the
numpy random generator) are modelled as oracle parameters; theorems that
depend on their analytic guarantees state those guarantees as explicit
hypotheses.
-/

namespace Kooplearn

/-- Boolean comparison sorting in descending order, as `np.flip(np.sort(v))`. -/
def descBool {α : Type} [LinearOrder α] : α → α → Bool := fun a b => decide (b ≤ a)

/-- Modelled from the spec: `topk` from `kooplearn._src.utils` (imported by
`primal.py` but not among the sources).  Per the spec it "selects the `rank`
largest values (ties broken by the underlying selection order, not specified
further)" of a one-dimensional array together with their indices.  It is
embedded as a stable descending sort of the indexed values, keeping the first
`k` entries; an entry is a pair `(index, value)`. -/
def topk {α : Type} [LinearOrder α] (values : List α) (k : ℕ) : List (ℕ × α) :=
  ((values.enum).mergeSort (List.enumLE descBool)).take k

/-- Result of `_rank_reveal`: the surviving values `S`, the vectors matrix `V`
(as a list of columns), and `warn`, which models the `logging.warning` call:
`none` when no warning is emitted, `some c` when a warning reporting that `c`
degrees of freedom are ignored is emitted. -/
structure RankRevealResult (α : Type) (β : Type) where
  S : List α
  V : List β
  warn : Option ℕ

/-- Embedding of `_rank_reveal` (primal.py, lines 129-152).  `vectors` is the
list of columns of the input matrix; column `i` of a numpy fancy-indexed
selection is `vectors.getD i 0`. -/
def _rank_reveal {α β : Type} [LinearOrder α] [Zero β]
    (values : List α) (vectors : List β) (rank : ℕ) (rcond : α) :
    RankRevealResult α β :=
  let top_vals := topk values rank
  let V := top_vals.map (fun p => vectors.getD p.1 0)
  let S := top_vals.map (fun p => p.2)
  if S.all (fun s => decide (rcond < s)) then
    ⟨S, V, none⟩
  else
    let SV := (S.zip V).filter (fun p => decide (rcond < p.1))
    let S2 := SV.map (fun p => p.1)
    let V2 := SV.map (fun p => p.2)
    ⟨S2, V2 ++ List.replicate (rank - V2.length) 0, some (rank - V2.length)⟩

/-- Basis column `i` of the 5×5 identity matrix, a concrete vectors input. -/
def e5 (i : Fin 5) : Fin 5 → ℚ := fun j => if j = i then 1 else 0

/-- Modelled from the spec: `weighted_norm` from `kooplearn._src.linalg` (imported
by `primal.py` but not among the sources).  Per the spec, the fitters "rescale each
eigenvector so its weighted norm under the regularized covariance is 1"; the weighted
norm of a column `v` under the metric `M` is `sqrt(vᵀ M v)`.  The source applies it
columnwise to a matrix; here it is applied to a single column. -/
noncomputable def weighted_norm {k : ℕ} (v : Fin k → ℝ)
    (M : Matrix (Fin k) (Fin k) ℝ) : ℝ :=
  Real.sqrt (Matrix.dotProduct v (M.mulVec v))

/-- Modelled from the spec: `spd_neg_pow` from `kooplearn._src.linalg` (imported by
`primal.py` but not among the sources), "computing `Aᵖ` for symmetric PSD `A` by
eigendecomposition, raising only non-negligible eigenvalues to the power and zeroing
the rest".  The eigendecomposition itself is an external routine, supplied as the
oracle `eigSolver`; eigenvalues at or below `cutoff` are zeroed. -/
noncomputable def spd_neg_pow {d : ℕ} (A : Matrix (Fin d) (Fin d) ℝ) (p : ℝ)
    (eigSolver : Matrix (Fin d) (Fin d) ℝ → List ℝ × List (Fin d → ℝ))
    (cutoff : ℝ) : Matrix (Fin d) (Fin d) ℝ :=
  let ev := eigSolver A
  (List.zip ev.1 ev.2).foldr
    (fun sv acc => acc +
      (if cutoff < sv.1 then sv.1 ^ p else 0) • Matrix.of (fun i j => sv.2 i * sv.2 j))
    0

/-- Embedding of `_fit_reduced_rank_regression_noreg` (primal.py, lines 37-54).
The symmetric eigendecomposition of `B Bᵀ` (`eigsh`/`eigh`, both producing
eigenpairs of their argument) is the oracle `eigSolver`; the eigendecomposition
used inside `spd_neg_pow` is the oracle `powSolver`. -/
noncomputable def _fit_reduced_rank_regression_noreg {d : ℕ}
    (C_X C_XY : Matrix (Fin d) (Fin d) ℝ) (rank : ℕ)
    (eigSolver powSolver : Matrix (Fin d) (Fin d) ℝ → List ℝ × List (Fin d → ℝ))
    (rcond : ℝ) : List (Fin d → ℝ) :=
  let rsqrt_C_X := spd_neg_pow C_X (-(1/2)) powSolver rcond
  let B := rsqrt_C_X * C_XY
  let _crcov := B * B.transpose
  let ev := eigSolver _crcov
  let res := _rank_reveal ev.1 ev.2 rank rcond
  res.V.map (fun c => rsqrt_C_X.mulVec c)

/-- Embedding of `fit_reduced_rank_regression` (primal.py, lines 11-35).  The
generalized symmetric eigensolver (`eigsh(_crcov, ..., M=reg)` or
`eigh(_crcov, reg)`) is the oracle `genEigSolver`, returning eigenpairs of the
pencil given by its two arguments.  The function performs no input validation,
which the `Except` return type makes explicit: it never produces an error. -/
noncomputable def fit_reduced_rank_regression {d : ℕ}
    (C_X C_XY : Matrix (Fin d) (Fin d) ℝ) (tikhonov_reg : ℝ) (rank : ℕ)
    (genEigSolver : Matrix (Fin d) (Fin d) ℝ → Matrix (Fin d) (Fin d) ℝ →
      List ℝ × List (Fin d → ℝ))
    (eigSolver powSolver : Matrix (Fin d) (Fin d) ℝ → List ℝ × List (Fin d → ℝ))
    (noreg_rcond : ℝ) : Except String (List (Fin d → ℝ)) :=
  if tikhonov_reg = 0 then
    Except.ok
      (_fit_reduced_rank_regression_noreg C_X C_XY rank eigSolver powSolver noreg_rcond)
  else
    let reg_input_covariance := C_X + tikhonov_reg • (1 : Matrix (Fin d) (Fin d) ℝ)
    let _crcov := C_XY * C_XY.transpose
    let ev := genEigSolver _crcov reg_input_covariance
    let top_eigs := topk ev.1 rank
    let vectors := top_eigs.map (fun p => ev.2.getD p.1 0)
    let _norms := vectors.map (fun v => weighted_norm v reg_input_covariance)
    Except.ok (List.zipWith (fun v n => n⁻¹ • v) vectors _norms)

/-- Embedding of `fit_rand_reduced_rank_regression` (primal.py, lines 56-84).
Randomness is modelled by an explicit `world` parameter: `rng seed world` is the
standard-normal sketch drawn from `np.random.default_rng(rng_seed)`.  `solve`
models `scipy.linalg.solve(A, B, assume_a=pos)`; `genEigSolver` models
`eigh(F_1, F_0)`.  The function performs no input validation. -/
noncomputable def fit_rand_reduced_rank_regression {d : ℕ} {W : Type}
    (C_X C_XY : Matrix (Fin d) (Fin d) ℝ) (tikhonov_reg : ℝ)
    (rank n_oversamples iterated_power : ℕ) (rng_seed : Option ℕ)
    (rng : Option ℕ → W → Matrix (Fin d) (Fin (rank + n_oversamples)) ℝ)
    (solve : Matrix (Fin d) (Fin d) ℝ →
      Matrix (Fin d) (Fin (rank + n_oversamples)) ℝ →
      Matrix (Fin d) (Fin (rank + n_oversamples)) ℝ)
    (genEigSolver :
      Matrix (Fin (rank + n_oversamples)) (Fin (rank + n_oversamples)) ℝ →
      Matrix (Fin (rank + n_oversamples)) (Fin (rank + n_oversamples)) ℝ →
      List ℝ × List (Fin (rank + n_oversamples) → ℝ))
    (world : W) : Except String (List (Fin d → ℝ)) :=
  let reg_input_covariance := C_X + tikhonov_reg • (1 : Matrix (Fin d) (Fin d) ℝ)
  let _crcov := C_XY * C_XY.transpose
  let sketch := (fun s => _crcov * (solve reg_input_covariance s))^[iterated_power]
    (rng rng_seed world)
  let sketch_p := solve reg_input_covariance sketch
  let F_0 := sketch_p.transpose * sketch
  let F_1 := sketch_p.transpose * _crcov * sketch_p
  let ev := genEigSolver F_1 F_0
  let _norms := ev.2.map (fun v => weighted_norm v F_0)
  let vectors := List.zipWith (fun v n => n⁻¹ • v) ev.2 _norms
  Except.ok ((topk ev.1 rank).map (fun p => sketch_p.mulVec (vectors.getD p.1 0)))

/-- Embedding of `fit_principal_component_regression` (primal.py, lines 86-105).
The symmetric eigendecomposition of the regularized covariance (`eigsh`/`eigh`)
is the oracle `eigSolver`.  The only input validation in the source is
`assert rank <= dim`, modelled by the single `Except.error` branch. -/
noncomputable def fit_principal_component_regression {d : ℕ}
    (C_X : Matrix (Fin d) (Fin d) ℝ) (tikhonov_reg : ℝ) (rank : Option ℕ)
    (eigSolver : Matrix (Fin d) (Fin d) ℝ → List ℝ × List (Fin d → ℝ))
    (rcond : ℝ) : Except String (List (Fin d → ℝ)) :=
  let dim := d
  let rank := rank.getD dim
  if rank ≤ dim then
    let reg_input_covariance := C_X + tikhonov_reg • (1 : Matrix (Fin d) (Fin d) ℝ)
    let ev := eigSolver reg_input_covariance
    let res := _rank_reveal ev.1 ev.2 rank rcond
    let rsqrt_evals := res.S.map (fun s => (Real.sqrt s)⁻¹) ++
      List.replicate (rank - res.S.length) 0
    Except.ok (List.zipWith (fun c a => a • c) res.V rsqrt_evals)
  else Except.error "Rank too high."

/-- Embedding of `fit_rand_principal_component_regression` (primal.py, lines
107-127).  `randomized_svd` (sklearn) is an oracle returning the left singular
vectors and singular values; its dependence on the seed and on ambient
randomness is modelled by the final `Option ℕ → W` arguments.  The only input
validation in the source is `assert rank <= dim`. -/
noncomputable def fit_rand_principal_component_regression {d : ℕ} {W : Type}
    (C_X : Matrix (Fin d) (Fin d) ℝ) (tikhonov_reg : ℝ) (rank : Option ℕ)
    (n_oversamples iterated_power : ℕ) (rcond : ℝ) (rng_seed : Option ℕ)
    (rsvd : Matrix (Fin d) (Fin d) ℝ → ℕ → ℕ → ℕ → Option ℕ → W →
      List (Fin d → ℝ) × List ℝ)
    (world : W) : Except String (List (Fin d → ℝ)) :=
  let dim := d
  let rank := rank.getD dim
  if rank ≤ dim then
    let reg_input_covariance := C_X + tikhonov_reg • (1 : Matrix (Fin d) (Fin d) ℝ)
    let sv := rsvd reg_input_covariance rank n_oversamples iterated_power rng_seed world
    let res := _rank_reveal sv.2 sv.1 rank rcond
    let rsqrt_evals := res.S.map (fun s => (Real.sqrt s)⁻¹) ++
      List.replicate (rank - res.S.length) 0
    Except.ok (List.zipWith (fun c a => a • c) res.V rsqrt_evals)
  else Except.error "Rank too high."

/-- Embedding of `predict` (primal.py, lines 155-170), over an arbitrary field
so that it is fully executable at `ℚ`. -/
def predict {K : Type} [Field K] {m n d r q : ℕ} (num_steps : ℕ)
    (U : Matrix (Fin d) (Fin r) K) (C_XY : Matrix (Fin d) (Fin d) K)
    (phi_Xin : Matrix (Fin m) (Fin d) K) (phi_X : Matrix (Fin n) (Fin d) K)
    (obs_train_Y : Matrix (Fin n) (Fin q) K) : Matrix (Fin m) (Fin q) K :=
  let num_train := n
  let phi_Xin_dot_U := phi_Xin * U
  let U_C_XY_U := U.transpose * C_XY * U
  let U_phi_X_obs_Y := (num_train : K)⁻¹ • (U.transpose * phi_X.transpose * obs_train_Y)
  let M := U_C_XY_U ^ (num_steps - 1)
  phi_Xin_dot_U * M * U_phi_X_obs_Y

/-- numpy's default ascending comparison for complex arrays: lexicographic on
(real part, imaginary part). -/
noncomputable def complexLe : ℂ → ℂ → Bool := fun a b =>
  decide (a.re < b.re ∨ (a.re = b.re ∧ a.im ≤ b.im))

/-- Embedding of `np.argsort` on a complex array: the list of indices sorting
the array ascending under `complexLe`. -/
noncomputable def argsortC (l : List ℂ) : List ℕ :=
  ((l.enum).mergeSort (List.enumLE complexLe)).map (fun p => p.1)

/-- Output of `scipy.linalg.eig(M, left=True, right=True)`: eigenvalues together
with the matrices (lists of columns) of left and right eigenvectors. -/
structure EigResult (r : ℕ) where
  values : List ℂ
  lv : List (Fin r → ℂ)
  rv : List (Fin r → ℂ)

/-- Euclidean column norm `np.linalg.norm(v)` of a complex column. -/
noncomputable def cnorm {d : ℕ} (v : Fin d → ℂ) : ℝ :=
  Real.sqrt (∑ i, Complex.abs (v i) ^ 2)

/-- The finite-dimensional operator `M = Uᵀ C_XY U` diagonalized by
`estimator_eig` and `estimator_modes` (primal.py, lines 177 and 203). -/
noncomputable def eig_M {d r : ℕ} (U : Matrix (Fin d) (Fin r) ℂ)
    (C_XY : Matrix (Fin d) (Fin d) ℂ) : Matrix (Fin r) (Fin r) ℂ :=
  U.transpose * C_XY * U

/-- Right-eigenvector pipeline of `estimator_eig` (primal.py, lines 185-187):
map to feature space (`U @ rv`), permute by the sort permutation of the
eigenvalues, normalize each column to unit Euclidean norm. -/
noncomputable def eig_rv_normalized {d r : ℕ} (U : Matrix (Fin d) (Fin r) ℂ)
    (o : EigResult r) : List (Fin d → ℂ) :=
  ((argsortC o.values).map
    (fun i => (o.rv.map (fun c => U.mulVec c)).getD i 0)).map
    (fun c => fun i => c i / (cnorm c : ℂ))

/-- Left-eigenvector pipeline of `estimator_eig` before biorthogonalization
(primal.py, lines 189-190): map to feature space (`C_XYᵀ @ U @ lv`), permute by
the sort permutation of the conjugated eigenvalues. -/
noncomputable def eig_lv_raw {d r : ℕ} (U : Matrix (Fin d) (Fin r) ℂ)
    (C_XY : Matrix (Fin d) (Fin d) ℂ) (o : EigResult r) : List (Fin d → ℂ) :=
  (argsortC (o.values.map (starRingEnd ℂ))).map
    (fun i => (o.lv.map (fun c => (C_XY.transpose * U).mulVec c)).getD i 0)

/-- Biorthogonalization denominators of `estimator_eig` (primal.py, line 191):
`l_norm = np.sum(lv * rv, axis=0)`. -/
noncomputable def eig_lnorm {d r : ℕ} (U : Matrix (Fin d) (Fin r) ℂ)
    (C_XY : Matrix (Fin d) (Fin d) ℂ) (o : EigResult r) : List ℂ :=
  List.zipWith (fun a b => ∑ i, a i * b i) (eig_lv_raw U C_XY o)
    (eig_rv_normalized U o)

/-- Embedding of `estimator_eig` (primal.py, lines 172-194).  The complex
eigendecomposition `scipy.linalg.eig` is the oracle `eigSolver`.  Returns
(values, left vectors, right vectors). -/
noncomputable def estimator_eig {d r : ℕ} (U : Matrix (Fin d) (Fin r) ℂ)
    (C_XY : Matrix (Fin d) (Fin d) ℂ)
    (eigSolver : Matrix (Fin r) (Fin r) ℂ → EigResult r) :
    List ℂ × List (Fin d → ℂ) × List (Fin d → ℂ) :=
  let o := eigSolver (eig_M U C_XY)
  let values := (argsortC o.values).map (fun i => o.values.getD i 0)
  let rv := eig_rv_normalized U o
  let lv := List.zipWith (fun c n => fun i => c i / n) (eig_lv_raw U C_XY o)
    (eig_lnorm U C_XY o)
  (values, lv, rv)

/-- Concrete test column: the all-ones column in dimension 1. -/
def oneCol1 : Fin 1 → ℝ := fun _ => 1

/-- Concrete generalized-eigensolver fixture: one eigenpair with eigenvalue 0
and eigenvector `oneCol1`, regardless of the input pencil. -/
def cGenEig : Matrix (Fin 1) (Fin 1) ℝ → Matrix (Fin 1) (Fin 1) ℝ →
    List ℝ × List (Fin 1 → ℝ) := fun _ _ => ([0], [oneCol1])

/-- Concrete symmetric-eigensolver fixture returning no eigenpairs. -/
def cEmptyEig : Matrix (Fin 1) (Fin 1) ℝ → List ℝ × List (Fin 1 → ℝ) :=
  fun _ => ([], [])

/-- Concrete symmetric-eigensolver fixture: eigenvalue 1 with eigenvector
`oneCol1`, regardless of the input. -/
def cOneEig : Matrix (Fin 1) (Fin 1) ℝ → List ℝ × List (Fin 1 → ℝ) :=
  fun _ => ([1], [oneCol1])

/-- Concrete randomized-SVD fixture: singular value 1 with left singular vector
`oneCol1`, for any input, seed and world. -/
def cRsvd : Matrix (Fin 1) (Fin 1) ℝ → ℕ → ℕ → ℕ → Option ℕ → Bool →
    List (Fin 1 → ℝ) × List ℝ := fun _ _ _ _ _ _ => ([oneCol1], [1])

/-- Concrete random-sketch fixture: the zero sketch, for any seed and world. -/
def cRng : Option ℕ → Bool → Matrix (Fin 1) (Fin (1 + 0)) ℝ := fun _ _ => 0

/-- Concrete SPD-solve fixture: returns its right-hand side unchanged. -/
def cSolve : Matrix (Fin 1) (Fin 1) ℝ → Matrix (Fin 1) (Fin (1 + 0)) ℝ →
    Matrix (Fin 1) (Fin (1 + 0)) ℝ := fun _ s => s

/-- Concrete small generalized-eigensolver fixture returning no eigenpairs. -/
def cGenEig2 : Matrix (Fin (1 + 0)) (Fin (1 + 0)) ℝ →
    Matrix (Fin (1 + 0)) (Fin (1 + 0)) ℝ →
    List ℝ × List (Fin (1 + 0) → ℝ) := fun _ _ => ([], [])

/-- Concrete test column: the all-ones complex column in dimension 1. -/
def onesC1 : Fin 1 → ℂ := fun _ => 1

/-- Concrete complex eigensolver fixture: eigenvalue 1 with left and right
eigenvectors `onesC1`, regardless of the input. -/
def cEig : Matrix (Fin 1) (Fin 1) ℂ → EigResult 1 :=
  fun _ => ⟨[1], [onesC1], [onesC1]⟩

section TopkLemmas

variable {α : Type} [LinearOrder α]

theorem topk_length (values : List α) (k : ℕ) (h : k ≤ values.length) :
    (topk values k).length = k := by
  simp [topk, h]

theorem topk_subset_enum {values : List α} {k : ℕ} {p : ℕ × α}
    (hp : p ∈ topk values k) : p ∈ values.enum := by
  have := List.take_subset k _ hp
  simpa using this

theorem topk_mem {values : List α} {k : ℕ} {p : ℕ × α}
    (hp : p ∈ topk values k) : values[p.1]? = some p.2 :=
  List.mem_enum_iff_getElem?.mp (topk_subset_enum hp)

theorem topk_mem_lt {values : List α} {k : ℕ} {p : ℕ × α}
    (hp : p ∈ topk values k) : p.1 < values.length := by
  have := topk_mem hp
  exact (List.getElem?_eq_some.mp this).1

theorem topk_mem_getD {values : List α} {k : ℕ} {p : ℕ × α} (d : α)
    (hp : p ∈ topk values k) : values.getD p.1 d = p.2 := by
  have h := topk_mem hp
  simp [List.getD_eq_getElem?_getD, h]

theorem topk_nodup_fst (values : List α) (k : ℕ) :
    ((topk values k).map Prod.fst).Nodup := by
  have hperm := List.mergeSort_perm (values.enum) (List.enumLE descBool)
  have hnd : (((values.enum).mergeSort (List.enumLE descBool)).map Prod.fst).Nodup :=
    ((hperm.map Prod.fst).nodup_iff).mpr (List.nodup_enum_map_fst _)
  exact ((List.take_sublist _ _).map Prod.fst).nodup hnd

theorem descBool_trans (a b c : α) (h₁ : descBool a b) (h₂ : descBool b c) :
    descBool a c = true := by
  simp only [descBool, decide_eq_true_eq] at *
  exact le_trans h₂ h₁

theorem descBool_total (a b : α) : descBool a b || descBool b a := by
  simp only [descBool]
  rcases le_total a b with h | h <;> simp [h]

theorem topk_sorted (values : List α) (k : ℕ) :
    (topk values k).Pairwise (fun p q => q.2 ≤ p.2) := by
  have hs := List.sorted_mergeSort
    (List.enumLE_trans descBool_trans) (List.enumLE_total descBool_total)
    (values.enum)
  have := hs.sublist (List.take_sublist k _)
  refine this.imp ?_
  intro p q hpq
  simp only [List.enumLE, descBool] at hpq
  by_cases h : q.2 ≤ p.2
  · exact h
  · simp [h] at hpq

/-- Every value selected by `topk` dominates every value that was not selected. -/
theorem topk_largest {values : List α} {k : ℕ} {p : ℕ × α} (d : α)
    (hp : p ∈ topk values k) (i : ℕ) (hi : i < values.length)
    (hni : i ∉ (topk values k).map Prod.fst) : values.getD i d ≤ p.2 := by
  set s := (values.enum).mergeSort (List.enumLE descBool) with hsdef
  have hmem : (i, values.getD i d) ∈ s := by
    rw [hsdef, List.mem_mergeSort, List.mem_enum_iff_getElem?]
    simp [List.getElem?_eq_getElem hi, List.getD_eq_getElem?_getD]
  have hsplit : s = s.take k ++ s.drop k := (List.take_append_drop k s).symm
  have hdrop : (i, values.getD i d) ∈ s.drop k := by
    rcases (List.mem_append.mp (hsplit ▸ hmem)) with h | h
    · exact absurd (List.mem_map_of_mem Prod.fst h) hni
    · exact h
  have hs := List.sorted_mergeSort
    (List.enumLE_trans descBool_trans) (List.enumLE_total descBool_total)
    (values.enum)
  rw [← hsdef, hsplit] at hs
  have hrel := (List.pairwise_append.mp hs).2.2 p hp _ hdrop
  simp only [List.enumLE] at hrel
  rw [List.getD_eq_getElem?_getD]
  by_cases h : descBool p.2 (values[i]?.getD d) = true
  · simpa [descBool] using h
  · simp [h] at hrel

end TopkLemmas

section RankRevealLemmas

variable {α β : Type} [LinearOrder α] [Zero β]

theorem rank_reveal_S_length_le (values : List α) (vectors : List β)
    (rank : ℕ) (rcond : α) :
    (_rank_reveal values vectors rank rcond).S.length ≤ rank := by
  have htop : (topk values rank).length ≤ rank := by
    simp [topk, List.length_take]
  have hfil := List.length_filter_le (fun p : α × β => decide (rcond < p.1))
    (((topk values rank).map (fun p => p.2)).zip
      ((topk values rank).map (fun p => vectors.getD p.1 0)))
  simp only [List.length_zip, List.length_map, min_self] at hfil
  simp only [_rank_reveal]
  split
  · simpa using htop
  · simpa using le_trans hfil htop

theorem rank_reveal_V_length (values : List α) (vectors : List β)
    (rank : ℕ) (rcond : α) (h : rank ≤ values.length) :
    (_rank_reveal values vectors rank rcond).V.length = rank := by
  have htop : (topk values rank).length = rank := topk_length values rank h
  have hfil := List.length_filter_le (fun p : α × β => decide (rcond < p.1))
    (((topk values rank).map (fun p => p.2)).zip
      ((topk values rank).map (fun p => vectors.getD p.1 0)))
  simp only [List.length_zip, List.length_map, min_self, htop] at hfil
  simp only [_rank_reveal]
  split
  · simp [htop]
  · simp only [List.length_append, List.length_map, List.length_replicate]
    omega

theorem rank_reveal_S_gt (values : List α) (vectors : List β)
    (rank : ℕ) (rcond : α) :
    ∀ s ∈ (_rank_reveal values vectors rank rcond).S, rcond < s := by
  simp only [_rank_reveal]
  split
  · rename_i hall
    intro s hs
    simp only [List.all_eq_true, decide_eq_true_eq] at hall
    simp only [List.mem_map] at hs
    obtain ⟨p, hp, rfl⟩ := hs
    exact hall _ (List.mem_map_of_mem _ hp)
  · intro s hs
    simp only [List.mem_map] at hs
    obtain ⟨p, hp, rfl⟩ := hs
    have := List.of_mem_filter hp
    simpa using this

theorem rank_reveal_S_mem (values : List α) (vectors : List β)
    (rank : ℕ) (rcond : α) :
    ∀ s ∈ (_rank_reveal values vectors rank rcond).S, s ∈ values := by
  have key : ∀ s ∈ (topk values rank).map (fun p => p.2), s ∈ values := by
    intro s hs
    simp only [List.mem_map] at hs
    obtain ⟨p, hp, rfl⟩ := hs
    exact List.getElem?_mem (topk_mem hp)
  simp only [_rank_reveal]
  split
  · exact key
  · intro s hs
    simp only [List.mem_map] at hs
    obtain ⟨p, hp, rfl⟩ := hs
    have hmem := List.mem_of_mem_filter hp
    exact key _ (List.of_mem_zip hmem).1

theorem rank_reveal_V_zero (values : List α) (vectors : List β)
    (rank : ℕ) (rcond : α) :
    ∀ j, (_rank_reveal values vectors rank rcond).S.length ≤ j →
      (_rank_reveal values vectors rank rcond).V.getD j 0 = 0 := by
  simp only [_rank_reveal]
  split
  · intro j hj
    simp only [List.length_map] at hj ⊢
    exact List.getD_eq_default _ _ (by simpa using hj)
  · intro j hj
    simp only [List.length_map] at hj ⊢
    rw [List.getD_append_right _ _ _ _ (by simpa using hj)]
    rw [List.getD_eq_getElem?_getD, List.getElem?_replicate]
    split <;> simp

theorem rank_reveal_warn_none (values : List α) (vectors : List β)
    (rank : ℕ) (rcond : α)
    (h : (_rank_reveal values vectors rank rcond).S.length = rank)
    (hlen : rank ≤ values.length) :
    (_rank_reveal values vectors rank rcond).warn = none := by
  revert h
  simp only [_rank_reveal]
  split
  · intro _; rfl
  · intro h
    exfalso
    rename_i hall
    simp only [List.all_eq_true, not_forall] at hall
    obtain ⟨s, hs, hns⟩ := hall
    have htop : (topk values rank).length = rank := topk_length values rank hlen
    obtain ⟨j, hj, hjs⟩ := List.mem_iff_getElem.mp hs
    have hjz : j < (((topk values rank).map (fun p => p.2)).zip
        ((topk values rank).map (fun p => vectors.getD p.1 0))).length := by
      simp only [List.length_zip, List.length_map, min_self]
      simpa using hj
    have hexists : ∃ p ∈ (((topk values rank).map (fun p => p.2)).zip
        ((topk values rank).map (fun p => vectors.getD p.1 0))),
        ¬((fun p : α × β => decide (rcond < p.1)) p = true) := by
      refine ⟨_, List.getElem_mem hjz, ?_⟩
      rw [List.getElem_zip]
      simpa [hjs] using hns
    have hlt := List.length_filter_lt_length_iff_exists.mpr hexists
    simp only [List.length_zip, List.length_map, min_self, htop] at hlt
    simp only [List.length_map] at h
    omega

theorem rank_reveal_warn_some (values : List α) (vectors : List β)
    (rank : ℕ) (rcond : α)
    (h : (_rank_reveal values vectors rank rcond).S.length < rank)
    (hlen : rank ≤ values.length) :
    (_rank_reveal values vectors rank rcond).warn =
      some (rank - (_rank_reveal values vectors rank rcond).S.length) := by
  revert h
  simp only [_rank_reveal]
  split
  · intro h
    exfalso
    have htop : (topk values rank).length = rank := topk_length values rank hlen
    simp [htop] at h
  · intro _
    simp

end RankRevealLemmas

theorem topk_concrete :
    topk [(5:ℚ), 4, 3, 0, -(1/10)] 5 = [(0,5),(1,4),(2,3),(3,0),(4,-(1/10))] := by
  have hs : List.Pairwise (fun p q => List.enumLE descBool p q = true)
      ([(5:ℚ), 4, 3, 0, -(1/10)].enum) := by
    simp [List.enum, List.enumFrom, List.enumLE, descBool]
    norm_num
  rw [topk, List.mergeSort_of_sorted hs]
  simp [List.enum, List.enumFrom]

/-- C1: for every values array, vectors matrix, requested rank `r ≤ |values|` and
tolerance `rcond`, `_rank_reveal` selects the `r` largest values (every selected
value dominates every unselected one), drops every selected value `≤ rcond`
(every surviving value exceeds `rcond` and is an actual input value), returns a
vectors matrix of exactly `r` columns in which every column beyond the survivors
is all-zero, and emits a warning carrying the number of discarded degrees of
freedom exactly when some selected value is dropped; in particular, for values
`[5, 4, 3, 0, -1/10]` with `rcond = 1/1000000` and requested rank 5, exactly 3
values survive, the output width is 5, the warning reports 2 discarded degrees
of freedom, and the last two columns are all-zero. -/
theorem C1_rank_reveal_truncation :
    (∀ (α β : Type) [LinearOrder α] [Zero β] (values : List α) (vectors : List β)
        (rank : ℕ) (rcond : α), rank ≤ values.length →
      ((_rank_reveal values vectors rank rcond).V.length = rank ∧
       (∀ s ∈ (_rank_reveal values vectors rank rcond).S, rcond < s ∧ s ∈ values) ∧
       (∀ j, (_rank_reveal values vectors rank rcond).S.length ≤ j →
          (_rank_reveal values vectors rank rcond).V.getD j 0 = 0) ∧
       ((_rank_reveal values vectors rank rcond).S.length = rank →
          (_rank_reveal values vectors rank rcond).warn = none) ∧
       ((_rank_reveal values vectors rank rcond).S.length < rank →
          (_rank_reveal values vectors rank rcond).warn =
            some (rank - (_rank_reveal values vectors rank rcond).S.length)) ∧
       (∀ p ∈ topk values rank, ∀ i < values.length,
          i ∉ (topk values rank).map Prod.fst →
            ∀ dflt, values.getD i dflt ≤ p.2))) ∧
    ((_rank_reveal [(5:ℚ), 4, 3, 0, -(1/10)] [e5 0, e5 1, e5 2, e5 3, e5 4]
        5 (1/1000000)).S = [5, 4, 3] ∧
     (_rank_reveal [(5:ℚ), 4, 3, 0, -(1/10)] [e5 0, e5 1, e5 2, e5 3, e5 4]
        5 (1/1000000)).V = [e5 0, e5 1, e5 2, 0, 0] ∧
     (_rank_reveal [(5:ℚ), 4, 3, 0, -(1/10)] [e5 0, e5 1, e5 2, e5 3, e5 4]
        5 (1/1000000)).warn = some 2) := by
  constructor
  · intro α β _ _ values vectors rank rcond h
    refine ⟨rank_reveal_V_length values vectors rank rcond h,
      fun s hs => ⟨rank_reveal_S_gt values vectors rank rcond s hs,
        rank_reveal_S_mem values vectors rank rcond s hs⟩,
      rank_reveal_V_zero values vectors rank rcond,
      fun h2 => rank_reveal_warn_none values vectors rank rcond h2 h,
      fun h2 => rank_reveal_warn_some values vectors rank rcond h2 h,
      fun p hp i hi hni dflt => topk_largest dflt hp i hi hni⟩
  · rw [_rank_reveal]
    rw [topk_concrete]
    norm_num [List.all, List.filter, List.replicate]

/-- Witness for C1: the general part applied at a concrete input. -/
theorem C1_rank_reveal_truncation_witness :
    1 ≤ [(2:ℚ)].length ∧
    ((_rank_reveal [(2:ℚ)] [e5 0] 1 0).V.length = 1 ∧
     (∀ s ∈ (_rank_reveal [(2:ℚ)] [e5 0] 1 0).S, 0 < s ∧ s ∈ [(2:ℚ)]) ∧
     (∀ j, (_rank_reveal [(2:ℚ)] [e5 0] 1 0).S.length ≤ j →
        (_rank_reveal [(2:ℚ)] [e5 0] 1 0).V.getD j 0 = 0) ∧
     ((_rank_reveal [(2:ℚ)] [e5 0] 1 0).S.length = 1 →
        (_rank_reveal [(2:ℚ)] [e5 0] 1 0).warn = none) ∧
     ((_rank_reveal [(2:ℚ)] [e5 0] 1 0).S.length < 1 →
        (_rank_reveal [(2:ℚ)] [e5 0] 1 0).warn =
          some (1 - (_rank_reveal [(2:ℚ)] [e5 0] 1 0).S.length)) ∧
     (∀ p ∈ topk [(2:ℚ)] 1, ∀ i < [(2:ℚ)].length,
        i ∉ (topk [(2:ℚ)] 1).map Prod.fst → ∀ dflt, [(2:ℚ)].getD i dflt ≤ p.2)) :=
  ⟨by simp, C1_rank_reveal_truncation.1 ℚ (Fin 5 → ℚ) [(2:ℚ)] [e5 0] 1 0 (by simp)⟩

theorem length_filter_zip_fst {α β : Type} (p : α → Bool) :
    ∀ (l1 : List α) (l2 : List β), l1.length = l2.length →
      ((l1.zip l2).filter (fun q => p q.1)).length = l1.countP p := by
  intro l1
  induction l1 with
  | nil => intro l2 _; simp
  | cons a l ih =>
    intro l2 hlen
    cases l2 with
    | nil => simp at hlen
    | cons b l2 =>
      simp only [List.zip_cons_cons, List.filter_cons, List.countP_cons]
      have := ih l2 (by simpa using hlen)
      by_cases hpa : p a
      · simp [hpa, this]
      · simp [hpa, this]

theorem rank_reveal_S_length_eq (values : List ℚ) (vectors : List (Fin 5 → ℚ))
    (rank : ℕ) (rcond : ℚ) (h : rank ≤ values.length) :
    (_rank_reveal values vectors rank rcond).S.length =
      rank - (((topk values rank).map (fun p => p.2)).countP
        (fun s => decide (s ≤ rcond))) := by
  have htop : (topk values rank).length = rank := topk_length values rank h
  have hsum := @List.length_eq_countP_add_countP _
    (fun s => decide (rcond < s)) ((topk values rank).map (fun p => p.2))
  have hcong : (((topk values rank).map (fun p => p.2)).countP
        (fun a => decide (¬decide (rcond < a) = true))) =
      (((topk values rank).map (fun p => p.2)).countP
        (fun s => decide (s ≤ rcond))) := by
    apply List.countP_congr
    intro s _
    simp [not_lt]
  simp only [List.length_map, htop] at hsum
  rw [hcong] at hsum
  simp only [_rank_reveal]
  split
  · rename_i hall
    have hzero : (((topk values rank).map (fun p => p.2)).countP
        (fun s => decide (s ≤ rcond))) = 0 := by
      rw [List.countP_eq_zero]
      intro s hsmem
      simp only [List.all_eq_true, decide_eq_true_eq] at hall
      simp only [decide_eq_true_eq, not_le]
      exact hall s hsmem
    simp [htop, hzero]
  · have hfil := length_filter_zip_fst (fun s => decide (rcond < s))
      ((topk values rank).map (fun p => p.2))
      ((topk values rank).map (fun p => vectors.getD p.1 0)) (by simp)
    simp only [List.length_map]
    rw [hfil]
    omega

theorem rank_reveal_concrete_mismatch :
    (_rank_reveal [(5:ℚ), 0] [e5 0, e5 1] 2 (1/1000000)).S.length = 1 ∧
    (_rank_reveal [(5:ℚ), 0] [e5 0, e5 1] 2 (1/1000000)).V.length = 2 := by
  have htop : topk [(5:ℚ), 0] 2 = [(0,5),(1,0)] := by
    have hs : List.Pairwise (fun p q => List.enumLE descBool p q = true)
        ([(5:ℚ), 0].enum) := by
      norm_num [List.enum, List.enumFrom, List.enumLE, descBool]
    rw [topk, List.mergeSort_of_sorted hs]
    simp [List.enum, List.enumFrom]
  rw [_rank_reveal, htop]
  norm_num [List.all, List.filter, List.replicate]

/-- C10: `_rank_reveal` zero-pads only the vectors matrix back to `rank` columns;
the values array is left unpadded with length `rank - k` where `k` is the number
of selected values at or below the tolerance, so the two components of the result
can have mismatched widths (e.g. values `[5, 0]` with rank 2 and tolerance
`1/1000000` yield 1 surviving value but 2 vector columns). -/
theorem C10_rank_reveal_values_unpadded :
    (∀ (values : List ℚ) (vectors : List (Fin 5 → ℚ)) (rank : ℕ) (rcond : ℚ),
      rank ≤ values.length →
      ((_rank_reveal values vectors rank rcond).V.length = rank ∧
       (_rank_reveal values vectors rank rcond).S.length =
         rank - (((topk values rank).map (fun p => p.2)).countP
           (fun s => decide (s ≤ rcond))))) ∧
    ((_rank_reveal [(5:ℚ), 0] [e5 0, e5 1] 2 (1/1000000)).S.length = 1 ∧
     (_rank_reveal [(5:ℚ), 0] [e5 0, e5 1] 2 (1/1000000)).V.length = 2) :=
  ⟨fun values vectors rank rcond h =>
    ⟨rank_reveal_V_length values vectors rank rcond h,
     rank_reveal_S_length_eq values vectors rank rcond h⟩,
   rank_reveal_concrete_mismatch⟩

/-- Witness for C10: the general part applied at a concrete input. -/
theorem C10_rank_reveal_values_unpadded_witness :
    1 ≤ [(2:ℚ)].length ∧
    ((_rank_reveal [(2:ℚ)] [e5 0] 1 0).V.length = 1 ∧
     (_rank_reveal [(2:ℚ)] [e5 0] 1 0).S.length =
       1 - (((topk [(2:ℚ)] 1).map (fun p => p.2)).countP
         (fun s => decide (s ≤ 0)))) :=
  ⟨by simp, C10_rank_reveal_values_unpadded.1 [(2:ℚ)] [e5 0] 1 0 (by simp)⟩

/-- C6: `predict` with `num_steps = 1` is exactly the direct linear readout
`φ_in @ U @ (Uᵀ φ_Xᵀ obs / n_train)`, because the zeroth power of the small
operator `Uᵀ C_XY U` is the identity matrix. -/
theorem C6_predict_one_step {K : Type} [Field K] {m n d r q : ℕ}
    (U : Matrix (Fin d) (Fin r) K) (C_XY : Matrix (Fin d) (Fin d) K)
    (phi_Xin : Matrix (Fin m) (Fin d) K) (phi_X : Matrix (Fin n) (Fin d) K)
    (obs_train_Y : Matrix (Fin n) (Fin q) K) :
    predict 1 U C_XY phi_Xin phi_X obs_train_Y =
      phi_Xin * U * ((n : K)⁻¹ • (U.transpose * phi_X.transpose * obs_train_Y)) ∧
    (U.transpose * C_XY * U) ^ (1 - 1) = (1 : Matrix (Fin r) (Fin r) K) := by
  constructor
  · simp [predict]
  · simp

/-- Counterexample to C3 as stated: the exact reduced-rank fitter accepts a
requested rank of 3 in ambient dimension 1 without any error, and the exact
principal-component fitter accepts a negative Tikhonov parameter without any
error. -/
theorem C3_counterexample :
    (∃ out, fit_reduced_rank_regression (1 : Matrix (Fin 1) (Fin 1) ℝ) 0 1 3
      (fun _ _ => ([], [])) (fun _ => ([], [])) (fun _ => ([], []))
      (2.2e-16 : ℝ) = Except.ok out) ∧
    (∃ out, fit_principal_component_regression (1 : Matrix (Fin 1) (Fin 1) ℝ) (-1) (some 1)
      (fun _ => ([], [])) (2.2e-16 : ℝ) = Except.ok out) := by
  constructor
  · exact ⟨_, by rw [fit_reduced_rank_regression, if_neg one_ne_zero]⟩
  · exact ⟨_, by
      rw [fit_principal_component_regression,
        if_pos (show (some 1).getD 1 ≤ 1 by simp)]⟩

/-- C3, amended: only the principal-component fitters validate their inputs, and
the only validation is the assertion `rank ≤ dim`: they succeed exactly when the
(defaulted) rank is at most the ambient dimension, regardless of the sign of the
Tikhonov parameter; the reduced-rank fitters (exact and randomized) perform no
validation at all and never raise, even for rank > d, rank < 1, or negative
regularization. -/
theorem C3_amended_validation :
    (∀ (d : ℕ) (C_X C_XY : Matrix (Fin d) (Fin d) ℝ) (tik : ℝ) (rank : ℕ)
        (genEig : Matrix (Fin d) (Fin d) ℝ → Matrix (Fin d) (Fin d) ℝ →
          List ℝ × List (Fin d → ℝ))
        (eig pow : Matrix (Fin d) (Fin d) ℝ → List ℝ × List (Fin d → ℝ)) (nr : ℝ),
      ∃ out, fit_reduced_rank_regression C_X C_XY tik rank genEig eig pow nr =
        Except.ok out) ∧
    (∀ (d : ℕ) (W : Type) (C_X C_XY : Matrix (Fin d) (Fin d) ℝ) (tik : ℝ)
        (rank nov ip : ℕ) (seed : Option ℕ) rng solve genEig (w : W),
      ∃ out, fit_rand_reduced_rank_regression C_X C_XY tik rank nov ip seed
        rng solve genEig w = Except.ok out) ∧
    (∀ (d : ℕ) (C_X : Matrix (Fin d) (Fin d) ℝ) (tik : ℝ) (rank : Option ℕ)
        (eig : Matrix (Fin d) (Fin d) ℝ → List ℝ × List (Fin d → ℝ)) (rcond : ℝ),
      (∃ out, fit_principal_component_regression C_X tik rank eig rcond =
        Except.ok out) ↔ rank.getD d ≤ d) ∧
    (∀ (d : ℕ) (W : Type) (C_X : Matrix (Fin d) (Fin d) ℝ) (tik : ℝ)
        (rank : Option ℕ) (nov ip : ℕ) (rcond : ℝ) (seed : Option ℕ) rsvd (w : W),
      (∃ out, fit_rand_principal_component_regression C_X tik rank nov ip rcond
        seed rsvd w = Except.ok out) ↔ rank.getD d ≤ d) := by
  refine ⟨?_, ?_, ?_, ?_⟩
  · intro d C_X C_XY tik rank genEig eig pow nr
    by_cases h : tik = 0
    · exact ⟨_, by rw [fit_reduced_rank_regression, if_pos h]⟩
    · exact ⟨_, by rw [fit_reduced_rank_regression, if_neg h]⟩
  · intro d W C_X C_XY tik rank nov ip seed rng solve genEig w
    exact ⟨_, rfl⟩
  · intro d C_X tik rank eig rcond
    constructor
    · rintro ⟨out, hout⟩
      by_contra hle
      rw [fit_principal_component_regression] at hout
      simp only [if_neg hle] at hout
      exact Except.noConfusion hout
    · intro hle
      exact ⟨_, by rw [fit_principal_component_regression, if_pos hle]⟩
  · intro d W C_X tik rank nov ip rcond seed rsvd w
    constructor
    · rintro ⟨out, hout⟩
      by_contra hle
      rw [fit_rand_principal_component_regression] at hout
      simp only [if_neg hle] at hout
      exact Except.noConfusion hout
    · intro hle
      exact ⟨_, by rw [fit_rand_principal_component_regression, if_pos hle]⟩

theorem zipWith_map_same {α β γ δ : Type} (f : β → γ → δ) (g : α → β) (h : α → γ)
    (l : List α) :
    List.zipWith f (l.map g) (l.map h) = l.map (fun a => f (g a) (h a)) := by
  rw [List.zipWith_map, List.zipWith_same]

theorem fit_rrr_reg_eq {d : ℕ} (C_X C_XY : Matrix (Fin d) (Fin d) ℝ)
    (tik : ℝ) (rank : ℕ)
    (genEig : Matrix (Fin d) (Fin d) ℝ → Matrix (Fin d) (Fin d) ℝ →
      List ℝ × List (Fin d → ℝ))
    (eig pow : Matrix (Fin d) (Fin d) ℝ → List ℝ × List (Fin d → ℝ)) (nr : ℝ)
    (htik : tik ≠ 0) :
    fit_reduced_rank_regression C_X C_XY tik rank genEig eig pow nr =
      Except.ok ((topk (genEig (C_XY * C_XY.transpose)
          (C_X + tik • (1 : Matrix (Fin d) (Fin d) ℝ))).1 rank).map
        (fun p =>
          (weighted_norm ((genEig (C_XY * C_XY.transpose)
              (C_X + tik • (1 : Matrix (Fin d) (Fin d) ℝ))).2.getD p.1 0)
            (C_X + tik • (1 : Matrix (Fin d) (Fin d) ℝ)))⁻¹ •
          (genEig (C_XY * C_XY.transpose)
              (C_X + tik • (1 : Matrix (Fin d) (Fin d) ℝ))).2.getD p.1 0)) := by
  rw [fit_reduced_rank_regression, if_neg htik]
  simp only [List.map_map]
  rw [zipWith_map_same]
  rfl

theorem topk_singleton_real : topk [(0:ℝ)] 1 = [(0, (0:ℝ))] := by
  have h1 : ([(0:ℝ)].enum) = [(0, (0:ℝ))] := by
    simp [List.enum, List.enumFrom]
  rw [topk, h1, List.mergeSort_singleton]
  rfl

theorem dot_oneCol1_reg :
    Matrix.dotProduct oneCol1
      (((1 : Matrix (Fin 1) (Fin 1) ℝ) + (1:ℝ) • 1).mulVec oneCol1) = 2 := by
  rw [Matrix.add_mulVec, Matrix.one_mulVec, Matrix.smul_mulVec_assoc,
    Matrix.one_mulVec]
  simp [oneCol1, Matrix.dotProduct]
  norm_num

theorem weighted_norm_concrete :
    weighted_norm oneCol1 ((1 : Matrix (Fin 1) (Fin 1) ℝ) + (1:ℝ) • 1) =
      Real.sqrt 2 := by
  rw [weighted_norm, dot_oneCol1_reg]

theorem cGenEig_eval (A B : Matrix (Fin 1) (Fin 1) ℝ) :
    cGenEig A B = ([0], [oneCol1]) := rfl

/-- Counterexample to C4 as stated: with `λ = 1 > 0`, a generalized eigenpair with
eigenvalue `0` (at or below any nonnegative tolerance, in particular the source
default `rcond = 2.2e-16`) is not dropped and its column is not replaced by zero:
the exact reduced-rank fitter keeps it and rescales it to weighted norm 1,
returning the nonzero column constantly `(√2)⁻¹`. -/
theorem C4_counterexample :
    fit_reduced_rank_regression (1 : Matrix (Fin 1) (Fin 1) ℝ) 0 1 1 cGenEig cEmptyEig cEmptyEig
      (2.2e-16 : ℝ) = Except.ok [fun _ => (Real.sqrt 2)⁻¹] ∧
    ((fun _ => (Real.sqrt 2)⁻¹) : Fin 1 → ℝ) ≠ 0 ∧
    (0 : ℝ) ≤ (2.2e-16 : ℝ) := by
  refine ⟨?_, ?_, by norm_num⟩
  · rw [fit_rrr_reg_eq _ _ _ _ _ _ _ _ one_ne_zero]
    rw [cGenEig_eval]
    simp only [topk_singleton_real, List.map_cons, List.map_nil]
    rw [List.getD_cons_zero, weighted_norm_concrete]
    have hcol : ((Real.sqrt 2)⁻¹ • oneCol1) =
        ((fun _ => (Real.sqrt 2)⁻¹) : Fin 1 → ℝ) := by
      funext i
      simp [oneCol1]
    rw [hcol]
  · intro hcontra
    have h0 := congrFun hcontra 0
    simp only [Pi.zero_apply] at h0
    have hsqrt2 : (0:ℝ) < Real.sqrt 2 := Real.sqrt_pos.mpr (by norm_num)
    exact absurd h0 (ne_of_gt (by positivity))

/-- C4, amended: in exact reduced-rank regression with `λ ≠ 0`, after solving the
generalized eigenproblem of `C_XY C_XYᵀ` against `C_X + λI`, the eigenpairs are
truncated to the target rank by plain top-`rank` selection (`topk`), with no
tolerance-based dropping, zero-padding, or warning; each selected eigenvector is
then rescaled so that its weighted norm under `C_X + λI` equals 1 (provided its
weighted norm is positive). -/
theorem C4_amended_reg_path_topk_and_rescale {d : ℕ}
    (C_X C_XY : Matrix (Fin d) (Fin d) ℝ) (tik : ℝ) (rank : ℕ)
    (genEig : Matrix (Fin d) (Fin d) ℝ → Matrix (Fin d) (Fin d) ℝ →
      List ℝ × List (Fin d → ℝ))
    (eig pow : Matrix (Fin d) (Fin d) ℝ → List ℝ × List (Fin d → ℝ)) (nr : ℝ)
    (htik : tik ≠ 0)
    (hlen : rank ≤ (genEig (C_XY * C_XY.transpose)
      (C_X + tik • (1 : Matrix (Fin d) (Fin d) ℝ))).1.length)
    (hpos : ∀ p ∈ topk (genEig (C_XY * C_XY.transpose)
        (C_X + tik • (1 : Matrix (Fin d) (Fin d) ℝ))).1 rank,
      0 < Matrix.dotProduct ((genEig (C_XY * C_XY.transpose)
          (C_X + tik • (1 : Matrix (Fin d) (Fin d) ℝ))).2.getD p.1 0)
        ((C_X + tik • (1 : Matrix (Fin d) (Fin d) ℝ)).mulVec
          ((genEig (C_XY * C_XY.transpose)
            (C_X + tik • (1 : Matrix (Fin d) (Fin d) ℝ))).2.getD p.1 0))) :
    ∃ cols, fit_reduced_rank_regression C_X C_XY tik rank genEig eig pow nr =
        Except.ok cols ∧
      cols.length = rank ∧
      cols = (topk (genEig (C_XY * C_XY.transpose)
          (C_X + tik • (1 : Matrix (Fin d) (Fin d) ℝ))).1 rank).map
        (fun p =>
          (weighted_norm ((genEig (C_XY * C_XY.transpose)
              (C_X + tik • (1 : Matrix (Fin d) (Fin d) ℝ))).2.getD p.1 0)
            (C_X + tik • (1 : Matrix (Fin d) (Fin d) ℝ)))⁻¹ •
          (genEig (C_XY * C_XY.transpose)
              (C_X + tik • (1 : Matrix (Fin d) (Fin d) ℝ))).2.getD p.1 0) ∧
      ∀ u ∈ cols, Matrix.dotProduct u
        ((C_X + tik • (1 : Matrix (Fin d) (Fin d) ℝ)).mulVec u) = 1 := by
  refine ⟨_, fit_rrr_reg_eq C_X C_XY tik rank genEig eig pow nr htik, ?_, rfl, ?_⟩
  · rw [List.length_map, topk_length _ _ hlen]
  · intro u hu
    simp only [List.mem_map] at hu
    obtain ⟨p, hp, rfl⟩ := hu
    set v := (genEig (C_XY * C_XY.transpose)
      (C_X + tik • (1 : Matrix (Fin d) (Fin d) ℝ))).2.getD p.1 0 with hv
    set A := C_X + tik • (1 : Matrix (Fin d) (Fin d) ℝ) with hA
    have hq : 0 < Matrix.dotProduct v (A.mulVec v) := hpos p hp
    have hqne : Matrix.dotProduct v (A.mulVec v) ≠ 0 := ne_of_gt hq
    rw [weighted_norm]
    rw [Matrix.mulVec_smul, Matrix.smul_dotProduct, Matrix.dotProduct_smul]
    rw [smul_eq_mul, smul_eq_mul, ← mul_assoc, ← mul_inv]
    rw [Real.mul_self_sqrt hq.le]
    exact inv_mul_cancel₀ hqne

/-- Witness for C4's amended theorem: applied at a concrete input. -/
theorem C4_amended_reg_path_topk_and_rescale_witness :
    ((1:ℝ) ≠ 0 ∧
     1 ≤ (cGenEig ((0 : Matrix (Fin 1) (Fin 1) ℝ) *
        (0 : Matrix (Fin 1) (Fin 1) ℝ).transpose)
        ((1 : Matrix (Fin 1) (Fin 1) ℝ) + (1:ℝ) • 1)).1.length) ∧
    (∃ cols, fit_reduced_rank_regression (1 : Matrix (Fin 1) (Fin 1) ℝ) 0 1 1
        cGenEig cEmptyEig cEmptyEig (2.2e-16 : ℝ) = Except.ok cols ∧
      cols.length = 1 ∧
      cols = (topk (cGenEig ((0 : Matrix (Fin 1) (Fin 1) ℝ) *
          (0 : Matrix (Fin 1) (Fin 1) ℝ).transpose)
          ((1 : Matrix (Fin 1) (Fin 1) ℝ) + (1:ℝ) • 1)).1 1).map
        (fun p =>
          (weighted_norm ((cGenEig ((0 : Matrix (Fin 1) (Fin 1) ℝ) *
              (0 : Matrix (Fin 1) (Fin 1) ℝ).transpose)
              ((1 : Matrix (Fin 1) (Fin 1) ℝ) + (1:ℝ) • 1)).2.getD p.1 0)
            ((1 : Matrix (Fin 1) (Fin 1) ℝ) + (1:ℝ) • 1))⁻¹ •
          (cGenEig ((0 : Matrix (Fin 1) (Fin 1) ℝ) *
              (0 : Matrix (Fin 1) (Fin 1) ℝ).transpose)
              ((1 : Matrix (Fin 1) (Fin 1) ℝ) + (1:ℝ) • 1)).2.getD p.1 0) ∧
      ∀ u ∈ cols, Matrix.dotProduct u
        (((1 : Matrix (Fin 1) (Fin 1) ℝ) + (1:ℝ) • 1).mulVec u) = 1) := by
  have hpos : ∀ p ∈ topk (cGenEig ((0 : Matrix (Fin 1) (Fin 1) ℝ) *
      (0 : Matrix (Fin 1) (Fin 1) ℝ).transpose)
      ((1 : Matrix (Fin 1) (Fin 1) ℝ) + (1:ℝ) • 1)).1 1,
      0 < Matrix.dotProduct ((cGenEig ((0 : Matrix (Fin 1) (Fin 1) ℝ) *
          (0 : Matrix (Fin 1) (Fin 1) ℝ).transpose)
          ((1 : Matrix (Fin 1) (Fin 1) ℝ) + (1:ℝ) • 1)).2.getD p.1 0)
        (((1 : Matrix (Fin 1) (Fin 1) ℝ) + (1:ℝ) • 1).mulVec
          ((cGenEig ((0 : Matrix (Fin 1) (Fin 1) ℝ) *
            (0 : Matrix (Fin 1) (Fin 1) ℝ).transpose)
            ((1 : Matrix (Fin 1) (Fin 1) ℝ) + (1:ℝ) • 1)).2.getD p.1 0)) := by
    intro p hp
    rw [cGenEig_eval] at hp ⊢
    rw [topk_singleton_real] at hp
    simp only [List.mem_singleton] at hp
    subst hp
    rw [List.getD_cons_zero, dot_oneCol1_reg]
    norm_num
  exact ⟨⟨one_ne_zero, by rw [cGenEig_eval]; simp⟩,
    C4_amended_reg_path_topk_and_rescale 1 0 1 1 cGenEig cEmptyEig cEmptyEig
      (2.2e-16 : ℝ) one_ne_zero (by rw [cGenEig_eval]; simp) hpos⟩

theorem topk_singleton {α : Type} [LinearOrder α] (x : α) :
    topk [x] 1 = [(0, x)] := by
  have h1 : ([x].enum) = [(0, x)] := by
    simp [List.enum, List.enumFrom]
  rw [topk, h1, List.mergeSort_singleton]
  rfl

theorem rank_reveal_all_pass {α β : Type} [LinearOrder α] [Zero β]
    (values : List α) (vectors : List β) (rank : ℕ) (rcond : α)
    (h : ∀ p ∈ topk values rank, rcond < p.2) :
    _rank_reveal values vectors rank rcond =
      ⟨(topk values rank).map (fun p => p.2),
       (topk values rank).map (fun p => vectors.getD p.1 0), none⟩ := by
  have hall : ((topk values rank).map (fun p => p.2)).all
      (fun s => decide (rcond < s)) = true := by
    rw [List.all_eq_true]
    intro s hs
    simp only [List.mem_map] at hs
    obtain ⟨p, hp, rfl⟩ := hs
    exact decide_eq_true (h p hp)
  simp only [_rank_reveal, hall]
  rfl

theorem fit_pcr_allpass {d : ℕ} (C_X : Matrix (Fin d) (Fin d) ℝ) (tik : ℝ)
    (rank : ℕ) (eig : Matrix (Fin d) (Fin d) ℝ → List ℝ × List (Fin d → ℝ))
    (rcond : ℝ) (values : List ℝ) (vectors : List (Fin d → ℝ))
    (hev : eig (C_X + tik • (1 : Matrix (Fin d) (Fin d) ℝ)) = (values, vectors))
    (hrankd : rank ≤ d) (hrank : rank ≤ values.length)
    (hpos : ∀ p ∈ topk values rank, rcond < p.2) :
    fit_principal_component_regression C_X tik (some rank) eig rcond =
      Except.ok ((topk values rank).map
        (fun p => (Real.sqrt p.2)⁻¹ • vectors.getD p.1 0)) := by
  have hcond : (some rank).getD d ≤ d := by simpa using hrankd
  rw [fit_principal_component_regression, if_pos hcond]
  have hres := rank_reveal_all_pass values vectors rank rcond hpos
  simp only [hev, Option.getD_some, hres]
  rw [List.length_map, topk_length values rank hrank, Nat.sub_self,
    List.replicate_zero, List.append_nil]
  rw [List.map_map, zipWith_map_same]
  rfl

set_option maxHeartbeats 1000000 in
/-- C2: for every symmetric positive-semidefinite `C_X`, regularization `λ`, and
target rank `r ≤ d` whose selected eigenvalues all exceed the (nonnegative)
tolerance, `fit_principal_component_regression` returns `U` of shape `(d, r)`
with `Uᵀ (C_X + λI) U` equal to the identity — in particular each of its columns
has unit Euclidean norm.  The eigendecomposition contract of the solver (true
eigenpairs, orthonormal eigenvectors) is stated as hypotheses. -/
theorem C2_pcr_weighted_orthonormal {d : ℕ} (C_X : Matrix (Fin d) (Fin d) ℝ)
    (tik : ℝ) (rank : ℕ)
    (eig : Matrix (Fin d) (Fin d) ℝ → List ℝ × List (Fin d → ℝ)) (rcond : ℝ)
    (values : List ℝ) (vectors : List (Fin d → ℝ))
    (hev : eig (C_X + tik • (1 : Matrix (Fin d) (Fin d) ℝ)) = (values, vectors))
    (hrankd : rank ≤ d) (hrank : rank ≤ values.length) (hrcond : 0 ≤ rcond)
    (heig : ∀ i, i < values.length →
      (C_X + tik • (1 : Matrix (Fin d) (Fin d) ℝ)).mulVec (vectors.getD i 0) =
        values.getD i 0 • vectors.getD i 0)
    (horth : ∀ i j, i < values.length → j < values.length →
      Matrix.dotProduct (vectors.getD i 0) (vectors.getD j 0) =
        if i = j then 1 else 0)
    (hpos : ∀ p ∈ topk values rank, rcond < p.2) :
    ∃ U, fit_principal_component_regression C_X tik (some rank) eig rcond =
        Except.ok U ∧
      U.length = rank ∧
      (∀ i j, i < rank → j < rank →
        Matrix.dotProduct (U.getD i 0)
          ((C_X + tik • (1 : Matrix (Fin d) (Fin d) ℝ)).mulVec (U.getD j 0)) =
          if i = j then 1 else 0) ∧
      (∀ j, j < rank →
        ∑ i in Finset.range rank,
          (Matrix.dotProduct (U.getD i 0)
            ((C_X + tik • (1 : Matrix (Fin d) (Fin d) ℝ)).mulVec (U.getD j 0)))^2
          = 1) := by
  have htoplen : (topk values rank).length = rank := topk_length values rank hrank
  have hentry : ∀ i j, i < rank → j < rank →
      Matrix.dotProduct (((topk values rank).map
          (fun p => (Real.sqrt p.2)⁻¹ • vectors.getD p.1 0)).getD i 0)
        ((C_X + tik • (1 : Matrix (Fin d) (Fin d) ℝ)).mulVec
          (((topk values rank).map
            (fun p => (Real.sqrt p.2)⁻¹ • vectors.getD p.1 0)).getD j 0)) =
        if i = j then 1 else 0 := by
    intro i j hi hj
    have hi' : i < (topk values rank).length := by rw [htoplen]; exact hi
    have hj' : j < (topk values rank).length := by rw [htoplen]; exact hj
    have hilen : i < ((topk values rank).map
        (fun p => (Real.sqrt p.2)⁻¹ • vectors.getD p.1 0)).length := by
      rw [List.length_map]; exact hi'
    have hjlen : j < ((topk values rank).map
        (fun p => (Real.sqrt p.2)⁻¹ • vectors.getD p.1 0)).length := by
      rw [List.length_map]; exact hj'
    rw [List.getD_eq_getElem _ _ hilen, List.getD_eq_getElem _ _ hjlen,
      List.getElem_map, List.getElem_map]
    have hpmem : (topk values rank)[i] ∈ topk values rank := List.getElem_mem hi'
    have hqmem : (topk values rank)[j] ∈ topk values rank := List.getElem_mem hj'
    have hpa : (topk values rank)[i].1 < values.length := topk_mem_lt hpmem
    have hqa : (topk values rank)[j].1 < values.length := topk_mem_lt hqmem
    have hvq : values.getD (topk values rank)[j].1 0 = (topk values rank)[j].2 :=
      topk_mem_getD 0 hqmem
    rw [Matrix.mulVec_smul, Matrix.smul_dotProduct, Matrix.dotProduct_smul]
    rw [heig _ hqa, hvq, Matrix.dotProduct_smul]
    rw [horth _ _ hpa hqa]
    have hidx : ((topk values rank)[i].1 = (topk values rank)[j].1) ↔ (i = j) := by
      have hnd := topk_nodup_fst values rank
      have hi2 : i < ((topk values rank).map Prod.fst).length := by
        rw [List.length_map]; exact hi'
      have hj2 : j < ((topk values rank).map Prod.fst).length := by
        rw [List.length_map]; exact hj'
      have := @List.Nodup.getElem_inj_iff _ ((topk values rank).map Prod.fst)
        hnd i hi2 j hj2
      simpa [List.getElem_map] using this
    by_cases hij : i = j
    · subst hij
      rw [if_pos rfl, if_pos rfl]
      have hs : 0 < (topk values rank)[i].2 :=
        lt_of_le_of_lt hrcond (hpos _ hpmem)
      have hsne : (topk values rank)[i].2 ≠ 0 := ne_of_gt hs
      rw [smul_eq_mul, smul_eq_mul, smul_eq_mul, mul_one, ← mul_assoc,
        ← mul_inv, Real.mul_self_sqrt hs.le]
      exact inv_mul_cancel₀ hsne
    · rw [if_neg (fun hcon => hij (hidx.mp hcon)), if_neg hij]
      simp
  have h1 := fit_pcr_allpass C_X tik rank eig rcond values vectors hev hrankd
    hrank hpos
  have h2 : ((topk values rank).map
      (fun p => (Real.sqrt p.2)⁻¹ • vectors.getD p.1 0)).length = rank := by
    rw [List.length_map, htoplen]
  refine ⟨_, h1, h2, hentry, ?_⟩
  intro j hj
  have hsum : ∑ i in Finset.range rank,
      (Matrix.dotProduct (((topk values rank).map
          (fun p => (Real.sqrt p.2)⁻¹ • vectors.getD p.1 0)).getD i 0)
        ((C_X + tik • (1 : Matrix (Fin d) (Fin d) ℝ)).mulVec
          (((topk values rank).map
            (fun p => (Real.sqrt p.2)⁻¹ • vectors.getD p.1 0)).getD j 0)))^2 =
      ∑ i in Finset.range rank, (if i = j then (1:ℝ) else 0) := by
    apply Finset.sum_congr rfl
    intro i hi
    rw [hentry i j (Finset.mem_range.mp hi) hj]
    by_cases hij : i = j <;> simp [hij]
  rw [hsum, Finset.sum_ite_eq' (Finset.range rank) j (fun _ => (1:ℝ))]
  simp [Finset.mem_range.mpr hj]

/-- Witness for C2: applied at `d = 1`, `C_X = I`, `λ = 0`, `rank = 1` with the
eigensolver fixture `cOneEig`. -/
theorem C2_pcr_weighted_orthonormal_witness :
    (cOneEig ((1 : Matrix (Fin 1) (Fin 1) ℝ) + (0:ℝ) • 1) = ([1], [oneCol1]) ∧
     1 ≤ [(1:ℝ)].length ∧ (0:ℝ) ≤ 0) ∧
    (∃ U, fit_principal_component_regression
        (1 : Matrix (Fin 1) (Fin 1) ℝ) 0 (some 1) cOneEig 0 = Except.ok U ∧
      U.length = 1 ∧
      (∀ i j, i < 1 → j < 1 →
        Matrix.dotProduct (U.getD i 0)
          (((1 : Matrix (Fin 1) (Fin 1) ℝ) + (0:ℝ) • 1).mulVec (U.getD j 0)) =
          if i = j then 1 else 0) ∧
      (∀ j, j < 1 →
        ∑ i in Finset.range 1,
          (Matrix.dotProduct (U.getD i 0)
            (((1 : Matrix (Fin 1) (Fin 1) ℝ) + (0:ℝ) • 1).mulVec (U.getD j 0)))^2
          = 1)) := by
  have heig : ∀ i, i < ([(1:ℝ)]).length →
      ((1 : Matrix (Fin 1) (Fin 1) ℝ) + (0:ℝ) • 1).mulVec
        ([oneCol1].getD i 0) =
      [(1:ℝ)].getD i 0 • [oneCol1].getD i 0 := by
    intro i hi
    have hi0 : i = 0 := by simpa using hi
    subst hi0
    rw [List.getD_cons_zero, List.getD_cons_zero]
    rw [Matrix.add_mulVec, Matrix.one_mulVec, Matrix.smul_mulVec_assoc,
      Matrix.one_mulVec]
    simp
  have horth : ∀ i j, i < ([(1:ℝ)]).length → j < ([(1:ℝ)]).length →
      Matrix.dotProduct ([oneCol1].getD i 0) ([oneCol1].getD j 0) =
        if i = j then 1 else 0 := by
    intro i j hi hj
    have hi0 : i = 0 := by simpa using hi
    have hj0 : j = 0 := by simpa using hj
    subst hi0; subst hj0
    rw [List.getD_cons_zero]
    simp [oneCol1, Matrix.dotProduct]
  have hpos : ∀ p ∈ topk [(1:ℝ)] 1, (0:ℝ) < p.2 := by
    intro p hp
    rw [topk_singleton] at hp
    simp only [List.mem_singleton] at hp
    subst hp
    norm_num
  exact ⟨⟨rfl, by simp, le_refl 0⟩,
    C2_pcr_weighted_orthonormal (1 : Matrix (Fin 1) (Fin 1) ℝ) 0 1 cOneEig 0
      [1] [oneCol1] rfl (le_refl 1) (by simp) (le_refl 0) heig horth hpos⟩

/-- C9: when the rank argument is omitted (`none`), both principal-component
fitters silently default the rank to the ambient dimension `d` of `C_X` and
return a projection matrix with `d` columns (of height `d`), provided the
eigensolver (resp. randomized SVD) returns `d` eigenvalues, as the dense solver
does. -/
theorem C9_pcr_rank_default :
    (∀ (d : ℕ) (C_X : Matrix (Fin d) (Fin d) ℝ) (tik : ℝ)
        (eig : Matrix (Fin d) (Fin d) ℝ → List ℝ × List (Fin d → ℝ)) (rcond : ℝ)
        (values : List ℝ) (vectors : List (Fin d → ℝ)),
      eig (C_X + tik • (1 : Matrix (Fin d) (Fin d) ℝ)) = (values, vectors) →
      values.length = d →
      ∃ U, fit_principal_component_regression C_X tik none eig rcond =
          Except.ok U ∧ U.length = d) ∧
    (∀ (d : ℕ) (W : Type) (C_X : Matrix (Fin d) (Fin d) ℝ) (tik : ℝ)
        (nov ip : ℕ) (rcond : ℝ) (seed : Option ℕ)
        (rsvd : Matrix (Fin d) (Fin d) ℝ → ℕ → ℕ → ℕ → Option ℕ → W →
          List (Fin d → ℝ) × List ℝ) (w : W)
        (vectors : List (Fin d → ℝ)) (values : List ℝ),
      rsvd (C_X + tik • (1 : Matrix (Fin d) (Fin d) ℝ)) d nov ip seed w =
        (vectors, values) →
      values.length = d →
      ∃ U, fit_rand_principal_component_regression C_X tik none nov ip rcond
          seed rsvd w = Except.ok U ∧ U.length = d) := by
  constructor
  · intro d C_X tik eig rcond values vectors hev hlen
    have hcond : (none : Option ℕ).getD d ≤ d := le_refl d
    rw [fit_principal_component_regression, if_pos hcond]
    refine ⟨_, rfl, ?_⟩
    simp only [hev, Option.getD_none]
    rw [List.length_zipWith]
    rw [rank_reveal_V_length values vectors d rcond (by omega)]
    rw [List.length_append, List.length_map, List.length_replicate]
    have hSle := rank_reveal_S_length_le values vectors d rcond
    omega
  · intro d W C_X tik nov ip rcond seed rsvd w vectors values hev hlen
    have hcond : (none : Option ℕ).getD d ≤ d := le_refl d
    rw [fit_rand_principal_component_regression, if_pos hcond]
    refine ⟨_, rfl, ?_⟩
    simp only [hev, Option.getD_none]
    rw [List.length_zipWith]
    rw [rank_reveal_V_length values vectors d rcond (by omega)]
    rw [List.length_append, List.length_map, List.length_replicate]
    have hSle := rank_reveal_S_length_le values vectors d rcond
    omega

/-- Witness for C9: applied at `d = 1` with the fixtures `cOneEig` and `cRsvd`. -/
theorem C9_pcr_rank_default_witness :
    (cOneEig ((1 : Matrix (Fin 1) (Fin 1) ℝ) + (0:ℝ) • 1) = ([1], [oneCol1]) ∧
     [(1:ℝ)].length = 1 ∧
     cRsvd ((1 : Matrix (Fin 1) (Fin 1) ℝ) + (0:ℝ) • 1) 1 0 0 none false =
       ([oneCol1], [1])) ∧
    (∃ U, fit_principal_component_regression
        (1 : Matrix (Fin 1) (Fin 1) ℝ) 0 none cOneEig 0 = Except.ok U ∧
      U.length = 1) ∧
    (∃ U, fit_rand_principal_component_regression
        (1 : Matrix (Fin 1) (Fin 1) ℝ) 0 none 0 0 0 none cRsvd false =
        Except.ok U ∧ U.length = 1) :=
  ⟨⟨rfl, rfl, rfl⟩,
   C9_pcr_rank_default.1 1 (1 : Matrix (Fin 1) (Fin 1) ℝ) 0 cOneEig 0
     [1] [oneCol1] rfl rfl,
   C9_pcr_rank_default.2 1 Bool (1 : Matrix (Fin 1) (Fin 1) ℝ) 0 0 0 0 none
     cRsvd false [oneCol1] [1] rfl rfl⟩

/-- C8: both randomized fitting paths are deterministic functions of their
inputs plus the caller-supplied seed: all dependence on ambient randomness (the
`world`) flows through the seeded random source, so if the random source gives
the same draw for the given seed in two worlds, the two runs produce identical
outputs. -/
theorem C8_rand_deterministic :
    (∀ (d : ℕ) (W : Type) (C_X C_XY : Matrix (Fin d) (Fin d) ℝ) (tik : ℝ)
        (rank nov ip : ℕ) (seed : ℕ)
        (rng : Option ℕ → W → Matrix (Fin d) (Fin (rank + nov)) ℝ)
        (solve : Matrix (Fin d) (Fin d) ℝ → Matrix (Fin d) (Fin (rank + nov)) ℝ →
          Matrix (Fin d) (Fin (rank + nov)) ℝ)
        (genEig2 : Matrix (Fin (rank + nov)) (Fin (rank + nov)) ℝ →
          Matrix (Fin (rank + nov)) (Fin (rank + nov)) ℝ →
          List ℝ × List (Fin (rank + nov) → ℝ))
        (w1 w2 : W),
      rng (some seed) w1 = rng (some seed) w2 →
      fit_rand_reduced_rank_regression C_X C_XY tik rank nov ip (some seed)
          rng solve genEig2 w1 =
        fit_rand_reduced_rank_regression C_X C_XY tik rank nov ip (some seed)
          rng solve genEig2 w2) ∧
    (∀ (d : ℕ) (W : Type) (C_X : Matrix (Fin d) (Fin d) ℝ) (tik : ℝ)
        (rank : Option ℕ) (nov ip : ℕ) (rcond : ℝ) (seed : ℕ)
        (rsvd : Matrix (Fin d) (Fin d) ℝ → ℕ → ℕ → ℕ → Option ℕ → W →
          List (Fin d → ℝ) × List ℝ)
        (w1 w2 : W),
      rsvd (C_X + tik • (1 : Matrix (Fin d) (Fin d) ℝ)) (rank.getD d) nov ip
          (some seed) w1 =
        rsvd (C_X + tik • (1 : Matrix (Fin d) (Fin d) ℝ)) (rank.getD d) nov ip
          (some seed) w2 →
      fit_rand_principal_component_regression C_X tik rank nov ip rcond
          (some seed) rsvd w1 =
        fit_rand_principal_component_regression C_X tik rank nov ip rcond
          (some seed) rsvd w2) := by
  constructor
  · intro d W C_X C_XY tik rank nov ip seed rng solve genEig2 w1 w2 hrng
    simp only [fit_rand_reduced_rank_regression, hrng]
  · intro d W C_X tik rank nov ip rcond seed rsvd w1 w2 hrsvd
    simp only [fit_rand_principal_component_regression, hrsvd]

/-- Witness for C8: applied with world type `Bool`, two distinct worlds and the
concrete fixtures. -/
theorem C8_rand_deterministic_witness :
    (cRng (some 0) false = cRng (some 0) true ∧
     cRsvd ((1 : Matrix (Fin 1) (Fin 1) ℝ) + (0:ℝ) • 1) ((some 1).getD 1) 0 0
        (some 0) false =
       cRsvd ((1 : Matrix (Fin 1) (Fin 1) ℝ) + (0:ℝ) • 1) ((some 1).getD 1) 0 0
        (some 0) true) ∧
    (fit_rand_reduced_rank_regression (1 : Matrix (Fin 1) (Fin 1) ℝ) 0 0 1 0 0
        (some 0) cRng cSolve cGenEig2 false =
      fit_rand_reduced_rank_regression (1 : Matrix (Fin 1) (Fin 1) ℝ) 0 0 1 0 0
        (some 0) cRng cSolve cGenEig2 true) ∧
    (fit_rand_principal_component_regression (1 : Matrix (Fin 1) (Fin 1) ℝ) 0
        (some 1) 0 0 0 (some 0) cRsvd false =
      fit_rand_principal_component_regression (1 : Matrix (Fin 1) (Fin 1) ℝ) 0
        (some 1) 0 0 0 (some 0) cRsvd true) :=
  ⟨⟨rfl, rfl⟩,
   C8_rand_deterministic.1 1 Bool (1 : Matrix (Fin 1) (Fin 1) ℝ) 0 0 1 0 0 0
     cRng cSolve cGenEig2 false true rfl,
   C8_rand_deterministic.2 1 Bool (1 : Matrix (Fin 1) (Fin 1) ℝ) 0 (some 1) 0 0
     0 0 cRsvd false true rfl⟩

theorem cnorm_nonneg {k : ℕ} (v : Fin k → ℂ) : 0 ≤ cnorm v :=
  Real.sqrt_nonneg _

theorem cnorm_eq_zero_iff {k : ℕ} (v : Fin k → ℂ) : cnorm v = 0 ↔ v = 0 := by
  rw [cnorm, Real.sqrt_eq_zero']
  constructor
  · intro hle
    have hz : ∀ i ∈ Finset.univ, Complex.abs (v i) ^ 2 = 0 := by
      rw [← Finset.sum_eq_zero_iff_of_nonneg
        (fun i _ => sq_nonneg (Complex.abs (v i)))]
      exact le_antisymm hle (Finset.sum_nonneg
        (fun i _ => sq_nonneg (Complex.abs (v i))))
    funext i
    have := hz i (Finset.mem_univ i)
    rw [sq_eq_zero_iff, map_eq_zero] at this
    exact this
  · intro h
    subst h
    simp

theorem cnorm_normalize {k : ℕ} (v : Fin k → ℂ) (h : cnorm v ≠ 0) :
    cnorm (fun i => v i / (cnorm v : ℂ)) = 1 := by
  have h0 : 0 ≤ cnorm v := cnorm_nonneg v
  have habs : Complex.abs ((cnorm v : ℝ) : ℂ) = cnorm v := by
    rw [Complex.abs_ofReal, abs_of_nonneg h0]
  have hsum : ∀ i : Fin k, Complex.abs (v i / (cnorm v : ℂ)) ^ 2 =
      Complex.abs (v i) ^ 2 / cnorm v ^ 2 := by
    intro i
    rw [map_div₀, habs, div_pow]
  rw [cnorm]
  calc Real.sqrt (∑ i, Complex.abs (v i / (cnorm v : ℂ)) ^ 2)
      = Real.sqrt ((∑ i, Complex.abs (v i) ^ 2) / cnorm v ^ 2) := by
        rw [Finset.sum_congr rfl (fun i _ => hsum i), Finset.sum_div]
    _ = Real.sqrt (∑ i, Complex.abs (v i) ^ 2) / Real.sqrt (cnorm v ^ 2) := by
        rw [Real.sqrt_div (Finset.sum_nonneg
          (fun i _ => sq_nonneg (Complex.abs (v i))))]
    _ = cnorm v / cnorm v := by
        rw [Real.sqrt_sq h0]
        rfl
    _ = 1 := div_self h

theorem argsortC_length (l : List ℂ) : (argsortC l).length = l.length := by
  simp [argsortC]

theorem eig_rv_normalized_length {d r : ℕ} (U : Matrix (Fin d) (Fin r) ℂ)
    (o : EigResult r) :
    (eig_rv_normalized U o).length = o.values.length := by
  simp [eig_rv_normalized, argsortC_length]

theorem eig_lv_raw_length {d r : ℕ} (U : Matrix (Fin d) (Fin r) ℂ)
    (C_XY : Matrix (Fin d) (Fin d) ℂ) (o : EigResult r) :
    (eig_lv_raw U C_XY o).length = o.values.length := by
  simp [eig_lv_raw, argsortC_length]

theorem eig_lnorm_length {d r : ℕ} (U : Matrix (Fin d) (Fin r) ℂ)
    (C_XY : Matrix (Fin d) (Fin d) ℂ) (o : EigResult r) :
    (eig_lnorm U C_XY o).length = o.values.length := by
  simp [eig_lnorm, List.length_zipWith, eig_rv_normalized_length,
    eig_lv_raw_length]

theorem estimator_eig_fst {d r : ℕ} (U : Matrix (Fin d) (Fin r) ℂ)
    (C_XY : Matrix (Fin d) (Fin d) ℂ)
    (es : Matrix (Fin r) (Fin r) ℂ → EigResult r) :
    (estimator_eig U C_XY es).1 =
      (argsortC (es (eig_M U C_XY)).values).map
        (fun i => (es (eig_M U C_XY)).values.getD i 0) := rfl

theorem estimator_eig_lv {d r : ℕ} (U : Matrix (Fin d) (Fin r) ℂ)
    (C_XY : Matrix (Fin d) (Fin d) ℂ)
    (es : Matrix (Fin r) (Fin r) ℂ → EigResult r) :
    (estimator_eig U C_XY es).2.1 =
      List.zipWith (fun c n => fun i => c i / n)
        (eig_lv_raw U C_XY (es (eig_M U C_XY)))
        (eig_lnorm U C_XY (es (eig_M U C_XY))) := rfl

theorem estimator_eig_rv {d r : ℕ} (U : Matrix (Fin d) (Fin r) ℂ)
    (C_XY : Matrix (Fin d) (Fin d) ℂ)
    (es : Matrix (Fin r) (Fin r) ℂ → EigResult r) :
    (estimator_eig U C_XY es).2.2 =
      eig_rv_normalized U (es (eig_M U C_XY)) := rfl

/-- C5: whenever the biorthogonalization denominators are all nonzero, every
eigentriplet returned by `estimator_eig` satisfies `∑ (lv_i * rv_i) = 1`
(biorthogonal pairing, no conjugation, as `np.sum(lv * rv, axis=0)`) and the
Euclidean norm of each right eigenvector is 1. -/
theorem C5_estimator_eig_biorthonormal {d r : ℕ} (U : Matrix (Fin d) (Fin r) ℂ)
    (C_XY : Matrix (Fin d) (Fin d) ℂ)
    (eigSolver : Matrix (Fin r) (Fin r) ℂ → EigResult r)
    (hden : ∀ z ∈ eig_lnorm U C_XY (eigSolver (eig_M U C_XY)), z ≠ 0) :
    ∀ i, i < (estimator_eig U C_XY eigSolver).1.length →
      (∑ k, ((estimator_eig U C_XY eigSolver).2.1.getD i 0) k *
        ((estimator_eig U C_XY eigSolver).2.2.getD i 0) k) = 1 ∧
      cnorm ((estimator_eig U C_XY eigSolver).2.2.getD i 0) = 1 := by
  intro i hi
  rw [estimator_eig_fst, List.length_map, argsortC_length] at hi
  set o := eigSolver (eig_M U C_XY) with ho
  have hrvlen : i < (eig_rv_normalized U o).length := by
    rw [eig_rv_normalized_length]; exact hi
  have hlvlen : i < (eig_lv_raw U C_XY o).length := by
    rw [eig_lv_raw_length]; exact hi
  have hlnlen : i < (eig_lnorm U C_XY o).length := by
    rw [eig_lnorm_length]; exact hi
  have hlv2len : i < (List.zipWith (fun c n => fun k => c k / n)
      (eig_lv_raw U C_XY o) (eig_lnorm U C_XY o)).length := by
    rw [List.length_zipWith, eig_lv_raw_length, eig_lnorm_length]
    simpa using hi
  have hilen1 : i < ((argsortC o.values).map
      (fun j => (o.rv.map (fun col => U.mulVec col)).getD j 0)).length := by
    rw [List.length_map, argsortC_length]; exact hi
  have hrvE : (eig_rv_normalized U o)[i] =
      fun k => (((argsortC o.values).map
        (fun j => (o.rv.map (fun col => U.mulVec col)).getD j 0))[i]) k /
        (cnorm (((argsortC o.values).map
          (fun j => (o.rv.map (fun col => U.mulVec col)).getD j 0))[i]) :
          ℂ) := by
    simp only [eig_rv_normalized, List.getElem_map]
  have hnrm_eq : (eig_lnorm U C_XY o)[i] =
      ∑ k, ((eig_lv_raw U C_XY o)[i]) k *
        ((eig_rv_normalized U o)[i]) k := by
    simp only [eig_lnorm, List.getElem_zipWith]
  have hnrm_ne : (eig_lnorm U C_XY o)[i] ≠ 0 :=
    hden _ (List.getElem_mem hlnlen)
  have hcne : cnorm (((argsortC o.values).map
      (fun j => (o.rv.map (fun col => U.mulVec col)).getD j 0))[i]) ≠ 0 := by
    intro h0
    have hc0 := (cnorm_eq_zero_iff _).mp h0
    have hrv0 : (eig_rv_normalized U o)[i] = 0 := by
      rw [hrvE, hc0]
      funext k
      simp
    apply hnrm_ne
    rw [hnrm_eq, hrv0]
    simp
  constructor
  · rw [estimator_eig_lv, estimator_eig_rv, ← ho,
      List.getD_eq_getElem _ _ hlv2len, List.getD_eq_getElem _ _ hrvlen,
      List.getElem_zipWith]
    have hpt : ∀ k, ((eig_lv_raw U C_XY o)[i]) k /
          ((eig_lnorm U C_XY o)[i]) *
          ((eig_rv_normalized U o)[i]) k =
        (((eig_lv_raw U C_XY o)[i]) k *
          ((eig_rv_normalized U o)[i]) k) /
          ((eig_lnorm U C_XY o)[i]) := by
      intro k
      ring
    rw [Finset.sum_congr rfl (fun k _ => hpt k), ← Finset.sum_div, ← hnrm_eq]
    exact div_self hnrm_ne
  · rw [estimator_eig_rv, ← ho, List.getD_eq_getElem _ _ hrvlen, hrvE]
    exact cnorm_normalize _ hcne

theorem argsortC_singleton (z : ℂ) : argsortC [z] = [0] := by
  have h1 : ([z].enum) = [(0, z)] := by simp [List.enum, List.enumFrom]
  rw [argsortC, h1, List.mergeSort_singleton]
  rfl

theorem cEig_eval (M : Matrix (Fin 1) (Fin 1) ℂ) :
    cEig M = ⟨[1], [onesC1], [onesC1]⟩ := rfl

theorem cnorm_onesC1 : cnorm onesC1 = 1 := by
  rw [cnorm]
  simp [onesC1]

theorem eig_lv_raw_concrete :
    eig_lv_raw (1 : Matrix (Fin 1) (Fin 1) ℂ) 1 (cEig (eig_M (1 : Matrix (Fin 1) (Fin 1) ℂ) 1)) =
      [onesC1] := by
  rw [eig_lv_raw, cEig_eval]
  have hstar : (([(1:ℂ)]).map (starRingEnd ℂ)) = [1] := by simp
  rw [hstar, argsortC_singleton]
  simp [Matrix.transpose_one, Matrix.one_mulVec]

theorem eig_rv_normalized_concrete :
    eig_rv_normalized (1 : Matrix (Fin 1) (Fin 1) ℂ) (cEig (eig_M (1 : Matrix (Fin 1) (Fin 1) ℂ) 1)) =
      [onesC1] := by
  rw [eig_rv_normalized, cEig_eval, argsortC_singleton]
  simp only [List.map_cons, List.map_nil, List.getD_cons_zero,
    Matrix.one_mulVec, cnorm_onesC1]
  have h1 : (fun k => onesC1 k / ((1:ℝ):ℂ)) = onesC1 := by
    funext k
    simp [onesC1]
  rw [h1]

theorem eig_lnorm_concrete :
    eig_lnorm (1 : Matrix (Fin 1) (Fin 1) ℂ) 1 (cEig (eig_M (1 : Matrix (Fin 1) (Fin 1) ℂ) 1)) = [1] := by
  rw [eig_lnorm, eig_lv_raw_concrete, eig_rv_normalized_concrete]
  simp [onesC1]

/-- Witness for C5: applied at `d = r = 1`, `U = C_XY = I` with the complex
eigensolver fixture `cEig`, at eigentriplet index 0. -/
theorem C5_estimator_eig_biorthonormal_witness :
    0 < (estimator_eig (1 : Matrix (Fin 1) (Fin 1) ℂ) 1 cEig).1.length ∧
    ((∑ k, ((estimator_eig (1 : Matrix (Fin 1) (Fin 1) ℂ) 1 cEig).2.1.getD 0 0) k *
      ((estimator_eig (1 : Matrix (Fin 1) (Fin 1) ℂ) 1 cEig).2.2.getD 0 0) k) = 1 ∧
     cnorm ((estimator_eig (1 : Matrix (Fin 1) (Fin 1) ℂ) 1 cEig).2.2.getD 0 0)
       = 1) := by
  have hden : ∀ z ∈ eig_lnorm (1 : Matrix (Fin 1) (Fin 1) ℂ) 1
      (cEig (eig_M (1 : Matrix (Fin 1) (Fin 1) ℂ) 1)), z ≠ 0 := by
    intro z hz
    rw [eig_lnorm_concrete] at hz
    simp only [List.mem_singleton] at hz
    subst hz
    exact one_ne_zero
  have hlen : 0 < (estimator_eig (1 : Matrix (Fin 1) (Fin 1) ℂ) 1 cEig).1.length := by
    rw [estimator_eig_fst, List.length_map, argsortC_length, cEig_eval]
    norm_num
  exact ⟨hlen,
    C5_estimator_eig_biorthonormal (1 : Matrix (Fin 1) (Fin 1) ℂ) 1 cEig hden
      0 hlen⟩

theorem complexLe_trans (a b c : ℂ) (h1 : complexLe a b) (h2 : complexLe b c) :
    complexLe a c = true := by
  simp only [complexLe, decide_eq_true_eq] at *
  rcases h1 with h | ⟨he, hi⟩ <;> rcases h2 with h' | ⟨he', hi'⟩
  · exact Or.inl (lt_trans h h')
  · exact Or.inl (he' ▸ h)
  · exact Or.inl (he ▸ h')
  · exact Or.inr ⟨he.trans he', le_trans hi hi'⟩

theorem complexLe_total (a b : ℂ) : complexLe a b || complexLe b a := by
  simp only [complexLe, Bool.or_eq_true, decide_eq_true_eq]
  rcases lt_trichotomy a.re b.re with h | h | h
  · exact Or.inl (Or.inl h)
  · rcases le_total a.im b.im with hi | hi
    · exact Or.inl (Or.inr ⟨h, hi⟩)
    · exact Or.inr (Or.inr ⟨h.symm, hi⟩)
  · exact Or.inr (Or.inl h)

theorem range_map_getD_zip {γ δ : Type} (d1 : γ) (d2 : δ) :
    ∀ (l : List γ) (m : List δ), m.length = l.length →
      (List.range l.length).map (fun i => (l.getD i d1, m.getD i d2)) =
        l.zip m := by
  intro l
  induction l with
  | nil =>
    intro m hm
    simp
  | cons a l ih =>
    intro m hm
    cases m with
    | nil => simp at hm
    | cons b m =>
      rw [List.length_cons, List.range_succ_eq_map, List.map_cons,
        List.map_map]
      rw [List.zip_cons_cons]
      congr 1
      have hfun : ((fun i => ((a :: l).getD i d1, (b :: m).getD i d2)) ∘
          Nat.succ) = fun i => (l.getD i d1, m.getD i d2) := by
        funext i
        simp [Function.comp, List.getD_cons_succ]
      rw [hfun]
      exact ih m (by simpa using hm)

theorem argsortC_map_getD (l : List ℂ) :
    (argsortC l).map (fun i => l.getD i 0) = l.mergeSort complexLe := by
  rw [argsortC, List.map_map]
  have hcong : ((l.enum).mergeSort (List.enumLE complexLe)).map
        ((fun i => l.getD i 0) ∘ Prod.fst) =
      ((l.enum).mergeSort (List.enumLE complexLe)).map (fun p => p.2) := by
    apply List.map_congr_left
    intro p hp
    have hp' : p ∈ l.enum := List.mem_mergeSort.mp hp
    have hget := List.mem_enum_iff_getElem?.mp hp'
    simp [Function.comp, List.getD_eq_getElem?_getD, hget]
  rw [hcong, List.mergeSort_enum]

theorem argsortC_zip_perm {γ : Type} (l : List ℂ) (m : List γ) (dm : γ)
    (hm : m.length = l.length) :
    (((argsortC l).map (fun i => l.getD i 0)).zip
      ((argsortC l).map (fun i => m.getD i dm))).Perm (l.zip m) := by
  rw [List.zip_map', argsortC, List.map_map]
  have hperm := (List.mergeSort_perm (l.enum) (List.enumLE complexLe)).map
    ((fun i => (l.getD i 0, m.getD i dm)) ∘ Prod.fst)
  refine hperm.trans (List.Perm.of_eq ?_)
  rw [← List.map_map, List.enum_map_fst]
  exact range_map_getD_zip 0 dm l m hm

theorem eig_rv_normalized_eq_map {d r : ℕ} (U : Matrix (Fin d) (Fin r) ℂ)
    (o : EigResult r) :
    eig_rv_normalized U o = (argsortC o.values).map
      (fun i => ((o.rv.map (fun c => U.mulVec c)).map
        (fun c => fun k => c k / (cnorm c : ℂ))).getD i 0) := by
  have h0 : (fun c => fun k => c k / (cnorm c : ℂ)) ((0 : Fin d → ℂ)) =
      (0 : Fin d → ℂ) := by
    funext t
    simp
  rw [eig_rv_normalized, List.map_map]
  apply List.map_congr_left
  intro i _
  show (fun c => fun k => c k / (cnorm c : ℂ))
      ((o.rv.map (fun c => U.mulVec c)).getD i 0) =
    ((o.rv.map (fun c => U.mulVec c)).map
      (fun c => fun k => c k / (cnorm c : ℂ))).getD i 0
  by_cases hi : i < (o.rv.map (fun c => U.mulVec c)).length
  · rw [List.getD_eq_getElem _ _ hi,
      List.getD_eq_getElem _ _ (by simpa using hi)]
    simp [List.getElem_map]
  · rw [List.getD_eq_default _ _ (le_of_not_lt hi),
      List.getD_eq_default _ _ (le_of_not_lt (by simpa using hi))]
    exact h0

/-- C7: `estimator_eig` returns its eigenvalues sorted ascending by numpy's
default complex ordering (lexicographic on real part, then imaginary part) —
the output values are exactly the merge sort of the solver's values under
`complexLe`; the right eigenvectors are permuted by that same sort permutation
(the pairing between each eigenvalue and its normalized right eigenvector is
preserved), while the pre-biorthogonalization left eigenvectors
(`eig_lv_raw`) are permuted by the independently computed sort permutation of
the conjugated eigenvalues (their pairing with the conjugated eigenvalues is
preserved); each permutation is applied only to its own side. -/
theorem C7_estimator_eig_sorting {d r : ℕ} (U : Matrix (Fin d) (Fin r) ℂ)
    (C_XY : Matrix (Fin d) (Fin d) ℂ)
    (es : Matrix (Fin r) (Fin r) ℂ → EigResult r)
    (hlv : (es (eig_M U C_XY)).lv.length = (es (eig_M U C_XY)).values.length)
    (hrv : (es (eig_M U C_XY)).rv.length = (es (eig_M U C_XY)).values.length) :
    (estimator_eig U C_XY es).1 =
      (es (eig_M U C_XY)).values.mergeSort complexLe ∧
    (estimator_eig U C_XY es).1.Pairwise (fun a b => complexLe a b = true) ∧
    ((estimator_eig U C_XY es).1.zip (estimator_eig U C_XY es).2.2).Perm
      ((es (eig_M U C_XY)).values.zip
        (((es (eig_M U C_XY)).rv.map (fun c => U.mulVec c)).map
          (fun c => fun k => c k / (cnorm c : ℂ)))) ∧
    ((((es (eig_M U C_XY)).values.map (starRingEnd ℂ)).mergeSort complexLe).zip
      (eig_lv_raw U C_XY (es (eig_M U C_XY)))).Perm
      (((es (eig_M U C_XY)).values.map (starRingEnd ℂ)).zip
        ((es (eig_M U C_XY)).lv.map
          (fun c => (C_XY.transpose * U).mulVec c))) := by
  refine ⟨?_, ?_, ?_, ?_⟩
  · rw [estimator_eig_fst]
    exact argsortC_map_getD _
  · rw [estimator_eig_fst, argsortC_map_getD]
    simpa using List.sorted_mergeSort complexLe_trans complexLe_total
      (es (eig_M U C_XY)).values
  · rw [estimator_eig_fst, estimator_eig_rv, eig_rv_normalized_eq_map]
    exact argsortC_zip_perm (es (eig_M U C_XY)).values
      (((es (eig_M U C_XY)).rv.map (fun c => U.mulVec c)).map
        (fun c => fun k => c k / (cnorm c : ℂ))) 0
      (by rw [List.length_map, List.length_map, hrv])
  · rw [← argsortC_map_getD]
    simp only [eig_lv_raw]
    exact argsortC_zip_perm ((es (eig_M U C_XY)).values.map (starRingEnd ℂ))
      ((es (eig_M U C_XY)).lv.map (fun c => (C_XY.transpose * U).mulVec c)) 0
      (by rw [List.length_map, List.length_map, hlv])

/-- Witness for C7: applied at `d = r = 1`, `U = C_XY = I` with the complex
eigensolver fixture `cEig`. -/
theorem C7_estimator_eig_sorting_witness :
    ((cEig (eig_M (1 : Matrix (Fin 1) (Fin 1) ℂ) 1)).lv.length =
       (cEig (eig_M (1 : Matrix (Fin 1) (Fin 1) ℂ) 1)).values.length ∧
     (cEig (eig_M (1 : Matrix (Fin 1) (Fin 1) ℂ) 1)).rv.length =
       (cEig (eig_M (1 : Matrix (Fin 1) (Fin 1) ℂ) 1)).values.length) ∧
    ((estimator_eig (1 : Matrix (Fin 1) (Fin 1) ℂ) 1 cEig).1 =
      (cEig (eig_M (1 : Matrix (Fin 1) (Fin 1) ℂ) 1)).values.mergeSort
        complexLe ∧
    (estimator_eig (1 : Matrix (Fin 1) (Fin 1) ℂ) 1 cEig).1.Pairwise
      (fun a b => complexLe a b = true) ∧
    ((estimator_eig (1 : Matrix (Fin 1) (Fin 1) ℂ) 1 cEig).1.zip
      (estimator_eig (1 : Matrix (Fin 1) (Fin 1) ℂ) 1 cEig).2.2).Perm
      ((cEig (eig_M (1 : Matrix (Fin 1) (Fin 1) ℂ) 1)).values.zip
        (((cEig (eig_M (1 : Matrix (Fin 1) (Fin 1) ℂ) 1)).rv.map
          (fun c => (1 : Matrix (Fin 1) (Fin 1) ℂ).mulVec c)).map
          (fun c => fun k => c k / (cnorm c : ℂ)))) ∧
    ((((cEig (eig_M (1 : Matrix (Fin 1) (Fin 1) ℂ) 1)).values.map
        (starRingEnd ℂ)).mergeSort complexLe).zip
      (eig_lv_raw (1 : Matrix (Fin 1) (Fin 1) ℂ) 1
        (cEig (eig_M (1 : Matrix (Fin 1) (Fin 1) ℂ) 1)))).Perm
      (((cEig (eig_M (1 : Matrix (Fin 1) (Fin 1) ℂ) 1)).values.map
        (starRingEnd ℂ)).zip
        ((cEig (eig_M (1 : Matrix (Fin 1) (Fin 1) ℂ) 1)).lv.map
          (fun c => ((1 : Matrix (Fin 1) (Fin 1) ℂ).transpose *
            (1 : Matrix (Fin 1) (Fin 1) ℂ)).mulVec c)))) :=
  ⟨⟨rfl, rfl⟩,
   C7_estimator_eig_sorting (1 : Matrix (Fin 1) (Fin 1) ℂ) 1 cEig rfl rfl⟩

end Kooplearn
